import Mathlib

/-!
# Verification of the vennimate circle-animation core (src/circles.c)

Shallow embedding of the animation core of `circles.c`:

* `animEase`        — the easing function (C doubles embedded as reals,
                      `pow` as `Real.rpow`);
* `nonLinCtlCurve`  — the control-to-exponent curve;
* `animDisplayStep` — the animation-clock part of `animDisplay`
                      (frame/group advance per tick);
* `recenter` / `circInit` — the centroid subtraction and Fisher-Yates
                      shuffle of `circInit` (the `circleGroups` table and
                      `NUM_GROUPS` live in `circles.h`, which is not part
                      of the sources; they are taken as parameters, and the
                      RNG `rnd_int32` from `random.h` is a function
                      parameter assumed to return values in range);
* `animSpecialKeys` — the special-key handler mutating duration,
                      frame counts and the nonlinearity control
                      (C doubles embedded as exact rationals, the
                      double-to-unsigned conversions as floor);
* `durAfterB64`     — a bit-exact IEEE binary64 model of the right-key
                      duration decrement, needed because the 0.2 floor
                      on `animDuration` is sensitive to binary64
                      rounding, which the rational reading idealizes
                      away.
-/

namespace Vennimate

/-- C: `double animEase(double t, double nonLin)`:
if `t < 0.5` then `0.5 * pow(2 * t, nonLin)`
else `1 - 0.5 * pow(2 * (1 - t), nonLin)`. -/
noncomputable def animEase (t nonLin : ℝ) : ℝ :=
  if t < 1 / 2 then 1 / 2 * (2 * t) ^ nonLin
  else 1 - 1 / 2 * (2 * (1 - t)) ^ nonLin

/-- C: `double nonLinCtlCurve(int nonLinCtl)`:
if `nonLinCtl == -1` then `1` else `pow(2, nonLinCtl / 2.0 - 2) + 1`. -/
noncomputable def nonLinCtlCurve (nonLinCtl : ℤ) : ℝ :=
  if nonLinCtl = -1 then 1
  else (2 : ℝ) ^ ((nonLinCtl : ℝ) / 2 - 2) + 1

/-- The animation-clock update at the end of `animDisplay`:
`nextGroupIdx = (currGroupIdx + 1) % NUM_GROUPS`;
`currAnimFrame = (currAnimFrame + 1) % animFrames`;
`if (!currAnimFrame) currGroupIdx = nextGroupIdx`.
State is the pair `(currGroupIdx, currAnimFrame)`. -/
def animDisplayStep (numGroups animFrames : ℕ) (st : ℕ × ℕ) : ℕ × ℕ :=
  let nextGroupIdx := (st.1 + 1) % numGroups
  let f := (st.2 + 1) % animFrames
  (if f = 0 then nextGroupIdx else st.1, f)

theorem animDisplayStep_frame (numGroups animFrames : ℕ) (st : ℕ × ℕ) :
    (animDisplayStep numGroups animFrames st).2 = (st.2 + 1) % animFrames := rfl

theorem animDisplayStep_group (numGroups animFrames : ℕ) (st : ℕ × ℕ) :
    (animDisplayStep numGroups animFrames st).1 =
      if (st.2 + 1) % animFrames = 0 then (st.1 + 1) % numGroups else st.1 := rfl

/-- Iterating the clock from frame 0: as long as fewer than `animFrames`
ticks have happened, the group is unchanged and the frame equals the
number of ticks. -/
theorem animDisplayStep_iterate_lt (numGroups animFrames g : ℕ) :
    ∀ k, k < animFrames →
      (animDisplayStep numGroups animFrames)^[k] (g, 0) = (g, k) := by
  intro k
  induction k with
  | zero => intro _; rfl
  | succ n ih =>
    intro hn
    rw [Function.iterate_succ_apply', ih (Nat.lt_of_succ_lt hn)]
    have h1 : (n + 1) % animFrames = n + 1 := Nat.mod_eq_of_lt hn
    simp [animDisplayStep, h1]

/-- After exactly `animFrames` ticks from frame 0, the frame is 0 again
and the group has advanced mod `numGroups`. -/
theorem animDisplayStep_iterate_full (numGroups animFrames g : ℕ)
    (hF : 1 ≤ animFrames) :
    (animDisplayStep numGroups animFrames)^[animFrames] (g, 0) =
      ((g + 1) % numGroups, 0) := by
  obtain ⟨m, rfl⟩ : ∃ m, animFrames = m + 1 := ⟨animFrames - 1, by omega⟩
  rw [Function.iterate_succ_apply',
    animDisplayStep_iterate_lt numGroups (m + 1) g m (Nat.lt_succ_self m)]
  simp [animDisplayStep]

/-- C1: with the animation clock at `(currGroupIdx = g, currAnimFrame = 0)`
and `animFrames = F ≥ 1`, after `F` display ticks the frame is 0 again and
the group index is `(g + 1) % NUM_GROUPS`; each tick advances the frame by
1 mod `F` and commits the group index exactly when the frame wraps to 0. -/
theorem animClock_advances (N F g : ℕ) (hF : 1 ≤ F) (hg : g < N) :
    (animDisplayStep N F)^[F] (g, 0) = ((g + 1) % N, 0) ∧
    (∀ g' f', (animDisplayStep N F (g', f')).2 = (f' + 1) % F) ∧
    (∀ g' f', (animDisplayStep N F (g', f')).1 =
      if (f' + 1) % F = 0 then (g' + 1) % N else g') := by
  refine ⟨animDisplayStep_iterate_full N F g hF, fun g' f' => rfl,
    fun g' f' => rfl⟩

/-- Witness for C1 at `NUM_GROUPS = 7`, `F = 3`, `g = 2`. -/
theorem animClock_advances_witness :
    (animDisplayStep 7 3)^[3] (2, 0) = ((2 + 1) % 7, 0) :=
  (animClock_advances 7 3 2 (by decide) (by decide)).1

/-- On the lower branch, `animEase t p ≤ 1/2` for `t ≤ 1/2`, `0 ≤ t`, `0 ≤ p`. -/
theorem animEase_lower_le_half (t p : ℝ) (hp : 0 ≤ p) (ht0 : 0 ≤ t)
    (ht : t < 1 / 2) : animEase t p ≤ 1 / 2 := by
  rw [animEase, if_pos ht]
  have h1 : (2 * t) ^ p ≤ 1 :=
    Real.rpow_le_one (by linarith) (by linarith) hp
  linarith

/-- On the upper branch, `1/2 ≤ animEase t p` for `1/2 ≤ t ≤ 1`, `0 ≤ p`. -/
theorem animEase_upper_ge_half (t p : ℝ) (hp : 0 ≤ p) (ht : ¬ t < 1 / 2)
    (ht1 : t ≤ 1) : 1 / 2 ≤ animEase t p := by
  rw [animEase, if_neg ht]
  push_neg at ht
  have h1 : (2 * (1 - t)) ^ p ≤ 1 :=
    Real.rpow_le_one (by linarith) (by linarith) hp
  linarith

/-- C2: for every exponent `nonLin ≥ 1`, `animEase` is monotone
non-decreasing in `t` on `[0, 1]`. -/
theorem animEase_mono (p t1 t2 : ℝ) (hp : 1 ≤ p) (h0 : 0 ≤ t1)
    (h12 : t1 ≤ t2) (h1 : t2 ≤ 1) : animEase t1 p ≤ animEase t2 p := by
  have hp0 : 0 ≤ p := by linarith
  by_cases hb1 : t1 < 1 / 2
  · by_cases hb2 : t2 < 1 / 2
    · rw [animEase, if_pos hb1, animEase, if_pos hb2]
      have h2 : (2 * t1) ^ p ≤ (2 * t2) ^ p :=
        Real.rpow_le_rpow (by linarith) (by linarith) hp0
      linarith
    · exact le_trans (animEase_lower_le_half t1 p hp0 h0 hb1)
        (animEase_upper_ge_half t2 p hp0 hb2 h1)
  · have hb2 : ¬ t2 < 1 / 2 := by push_neg at hb1 ⊢; linarith
    rw [animEase, if_neg hb1, animEase, if_neg hb2]
    push_neg at hb1 hb2
    have h2 : (2 * (1 - t2)) ^ p ≤ (2 * (1 - t1)) ^ p :=
      Real.rpow_le_rpow (by linarith) (by linarith) hp0
    linarith

/-- Witness for C2 at `p = 1`, `t1 = 1/4`, `t2 = 3/4`. -/
theorem animEase_mono_witness :
    animEase (1 / 4) 1 ≤ animEase (3 / 4) 1 :=
  animEase_mono 1 (1 / 4) (3 / 4) le_rfl (by norm_num) (by norm_num)
    (by norm_num)

/-- C3: for every `nonLin ≥ 1`, `animEase 0 = 0`, `animEase 1 = 1`,
`animEase (1/2) = 1/2`; and for `nonLin = 1` the map is the identity on
`[0, 1]`. -/
theorem animEase_boundary (p t : ℝ) (hp : 1 ≤ p) (ht0 : 0 ≤ t)
    (ht1 : t ≤ 1) :
    animEase 0 p = 0 ∧ animEase 1 p = 1 ∧ animEase (1 / 2) p = 1 / 2 ∧
      animEase t 1 = t := by
  have hpne : p ≠ 0 := by linarith
  refine ⟨?_, ?_, ?_, ?_⟩
  · rw [animEase, if_pos (by norm_num)]
    rw [mul_zero, Real.zero_rpow hpne, mul_zero]
  · rw [animEase, if_neg (by norm_num)]
    norm_num
    rw [Real.zero_rpow hpne]
  · rw [animEase, if_neg (by norm_num)]
    norm_num
  · by_cases hb : t < 1 / 2
    · rw [animEase, if_pos hb, Real.rpow_one]; ring
    · rw [animEase, if_neg hb, Real.rpow_one]; ring

/-- Witness for C3 at `p = 1`, `t = 1/3`. -/
theorem animEase_boundary_witness :
    animEase 0 1 = 0 ∧ animEase 1 1 = 1 ∧ animEase (1 / 2) 1 = 1 / 2 ∧
      animEase (1 / 3) 1 = 1 / 3 :=
  animEase_boundary 1 (1 / 3) le_rfl (by norm_num) (by norm_num)

theorem nonLinCtlCurve_of_ne (c : ℤ) (h : c ≠ -1) :
    nonLinCtlCurve c = (2 : ℝ) ^ ((c : ℝ) / 2 - 2) + 1 := by
  rw [nonLinCtlCurve, if_neg h]

/-- C7: `nonLinCtlCurve (-1) = 1`; for integer controls in `[0, 21]` the
curve is `2 ^ (c / 2 - 2) + 1` (real division); and the curve is strictly
increasing in the integer control over `[-1, 21]`. -/
theorem nonLinCtlCurve_spec :
    nonLinCtlCurve (-1) = 1 ∧
    (∀ c : ℤ, 0 ≤ c → c ≤ 21 →
      nonLinCtlCurve c = (2 : ℝ) ^ ((c : ℝ) / 2 - 2) + 1) ∧
    (∀ c1 c2 : ℤ, -1 ≤ c1 → c1 < c2 → c2 ≤ 21 →
      nonLinCtlCurve c1 < nonLinCtlCurve c2) := by
  refine ⟨by rw [nonLinCtlCurve, if_pos rfl], ?_, ?_⟩
  · intro c hc0 _
    exact nonLinCtlCurve_of_ne c (by omega)
  · intro c1 c2 h1 h12 h21
    rw [nonLinCtlCurve_of_ne c2 (by omega)]
    by_cases hc1 : c1 = -1
    · rw [hc1, nonLinCtlCurve, if_pos rfl]
      have : (0 : ℝ) < (2 : ℝ) ^ ((c2 : ℝ) / 2 - 2) :=
        Real.rpow_pos_of_pos (by norm_num) _
      linarith
    · rw [nonLinCtlCurve_of_ne c1 hc1]
      have hlt : ((c1 : ℝ) / 2 - 2) < ((c2 : ℝ) / 2 - 2) := by
        have : (c1 : ℝ) < (c2 : ℝ) := by exact_mod_cast h12
        linarith
      have := (Real.rpow_lt_rpow_left_iff
        (by norm_num : (1 : ℝ) < 2)).mpr hlt
      linarith

/-- Witness for C7: the strict-increase clause at the pair `(-1, 0)` and
the formula clause at `c = 0`. -/
theorem nonLinCtlCurve_spec_witness :
    nonLinCtlCurve (-1) < nonLinCtlCurve 0 ∧
      nonLinCtlCurve 0 = (2 : ℝ) ^ ((0 : ℝ) / 2 - 2) + 1 :=
  ⟨nonLinCtlCurve_spec.2.2 (-1) 0 (by decide) (by decide) (by decide),
    by
      have h1 := nonLinCtlCurve_spec.2.1 0 (by decide) (by decide)
      simpa using h1⟩

/-- The centering pass of `circInit` on one group: for each axis
`k ∈ {0, 1}`, `avCoord = Σ_j circleGroups[i][j][k]` and then every
`circleGroups[i][j][k] -= avCoord / 4.0`.  The radius entry `k = 2` is
not touched by the loop `for (k = 0; k < 2; k++)`. -/
def recenter (g : Fin 4 → Fin 3 → ℚ) : Fin 4 → Fin 3 → ℚ :=
  fun j k =>
    if (k : ℕ) < 2 then g j k - (∑ m : Fin 4, g m k) / 4 else g j k

/-- One Fisher-Yates swap from `circInit`:
`tmp = groupOrder[idx]; groupOrder[idx] = groupOrder[i];
groupOrder[i] = tmp;` (both reads happen before the writes). -/
def swapIdx (l : List ℕ) (i idx : ℕ) : List ℕ :=
  (l.set idx (l.getD i 0)).set i (l.getD idx 0)

/-- The shuffle loop of `circInit`: `groupOrder` starts as the identity
`[0, …, NUM_GROUPS)`, then for `i` from 0 to `NUM_GROUPS - 2` position `i`
is swapped with position `rnd i`, where `rnd i` models
`rnd_int32(i, NUM_GROUPS)`. -/
def fisherYates (n : ℕ) (rnd : ℕ → ℕ) : List ℕ :=
  (List.range (n - 1)).foldl (fun l i => swapIdx l i (rnd i)) (List.range n)

/-- `circInit` as a whole: recenter every group and shuffle the group
order.  `NUM_GROUPS`, the `circleGroups` table (from `circles.h`) and the
RNG (from `random.h`) are parameters. -/
def circInit (n : ℕ) (groups : Fin n → Fin 4 → Fin 3 → ℚ) (rnd : ℕ → ℕ) :
    (Fin n → Fin 4 → Fin 3 → ℚ) × List ℕ :=
  (fun i => recenter (groups i), fisherYates n rnd)

theorem cons_set_perm :
    ∀ (t : List ℕ) (m : ℕ) (a : ℕ), m < t.length →
      List.Perm (t.getD m 0 :: t.set m a) (a :: t) := by
  intro t
  induction t with
  | nil => intro m a hm; simp at hm
  | cons b t ih =>
    intro m a hm
    match m with
    | 0 => simpa using List.Perm.swap a b t
    | Nat.succ m' =>
      have hm' : m' < t.length := by simpa using hm
      have h1 : List.Perm (t.getD m' 0 :: b :: t.set m' a)
          (b :: t.getD m' 0 :: t.set m' a) :=
        List.Perm.swap b (t.getD m' 0) (t.set m' a)
      have h2 : List.Perm (b :: t.getD m' 0 :: t.set m' a) (b :: a :: t) :=
        List.Perm.cons b (ih m' a hm')
      have h3 : List.Perm (b :: a :: t) (a :: b :: t) := List.Perm.swap a b t
      simpa using (h1.trans h2).trans h3


theorem swapIdx_perm :
    ∀ (l : List ℕ) (i idx : ℕ), i < l.length → idx < l.length →
      List.Perm (swapIdx l i idx) l := by
  intro l
  induction l with
  | nil => intro i idx hi _; simp at hi
  | cons a t ih =>
    intro i idx hi hidx
    match i, idx with
    | 0, 0 => simp [swapIdx]
    | 0, Nat.succ m =>
      have hm : m < t.length := by simpa using hidx
      simpa [swapIdx] using cons_set_perm t m a hm
    | Nat.succ p, 0 =>
      have hp : p < t.length := by simpa using hi
      simpa [swapIdx] using cons_set_perm t p a hp
    | Nat.succ p, Nat.succ m =>
      have hp : p < t.length := by simpa using hi
      have hm : m < t.length := by simpa using hidx
      simpa [swapIdx] using List.Perm.cons a (ih p m hp hm)

theorem foldSwap_perm :
    ∀ (il : List ℕ) (l : List ℕ) (rnd : ℕ → ℕ),
      (∀ i ∈ il, i < l.length ∧ rnd i < l.length) →
      List.Perm (il.foldl (fun acc i => swapIdx acc i (rnd i)) l) l := by
  intro il
  induction il with
  | nil => intro l rnd _; simp
  | cons i il ih =>
    intro l rnd h
    have hi := h i (List.mem_cons_self i il)
    have hlen : (swapIdx l i (rnd i)).length = l.length := by
      simp [swapIdx]
    have h' : ∀ j ∈ il, j < (swapIdx l i (rnd i)).length ∧
        rnd j < (swapIdx l i (rnd i)).length := by
      intro j hj
      rw [hlen]
      exact h j (List.mem_cons_of_mem i hj)
    have hrest := ih (swapIdx l i (rnd i)) rnd h'
    simpa using hrest.trans (swapIdx_perm l i (rnd i) hi.1 hi.2)

/-- C5: assuming every call `rnd_int32(i, NUM_GROUPS)` returns an index in
`[i, NUM_GROUPS)`, the `groupOrder` produced by `circInit` is a
permutation of `[0, NUM_GROUPS)`: it has exactly `NUM_GROUPS` entries and
every index below `NUM_GROUPS` occurs exactly once. -/
theorem groupOrder_perm (n : ℕ) (groups : Fin n → Fin 4 → Fin 3 → ℚ)
    (rnd : ℕ → ℕ) (hrnd : ∀ i, i < n - 1 → i ≤ rnd i ∧ rnd i < n) :
    ((circInit n groups rnd).2).length = n ∧
      ∀ k, k < n → ((circInit n groups rnd).2).count k = 1 := by
  have hperm : List.Perm (fisherYates n rnd) (List.range n) := by
    apply foldSwap_perm
    intro i hi
    rw [List.length_range]
    have hi' : i < n - 1 := List.mem_range.mp hi
    exact ⟨by omega, (hrnd i hi').2⟩
  constructor
  · have := hperm.length_eq
    simpa [circInit, List.length_range] using this
  · intro k hk
    have hcount : (List.range n).count k = 1 :=
      List.count_eq_one_of_mem (List.nodup_range n) (List.mem_range.mpr hk)
    have := hperm.count_eq k
    simpa [circInit, hcount] using this

/-- Witness for C5 at `NUM_GROUPS = 4`, a zero table, and the in-range
choice function `rnd i = i + 1`. -/
theorem groupOrder_perm_witness :
    ((circInit 4 (fun _ _ _ => 0) (fun i => i + 1)).2).length = 4 ∧
      ∀ k, k < 4 →
        ((circInit 4 (fun _ _ _ => 0) (fun i => i + 1)).2).count k = 1 :=
  groupOrder_perm 4 (fun _ _ _ => 0) (fun i => i + 1)
    (by
      intro i hi
      refine ⟨Nat.le_succ i, ?_⟩
      show i + 1 < 4
      omega)

theorem recenter_sum_eq_zero (g : Fin 4 → Fin 3 → ℚ) (k : Fin 3)
    (hk : (k : ℕ) < 2) : ∑ j : Fin 4, recenter g j k = 0 := by
  simp only [recenter, if_pos hk]
  rw [Finset.sum_sub_distrib, Finset.sum_const, Finset.card_univ,
    Fintype.card_fin, nsmul_eq_mul]
  ring

/-- C6: after `circInit`, every group's 4 circles have x-coordinates
summing to 0 and y-coordinates summing to 0 (exact rational arithmetic). -/
theorem circInit_centered (n : ℕ) (groups : Fin n → Fin 4 → Fin 3 → ℚ)
    (rnd : ℕ → ℕ) (i : Fin n) :
    (∑ j : Fin 4, (circInit n groups rnd).1 i j 0) = 0 ∧
      (∑ j : Fin 4, (circInit n groups rnd).1 i j 1) = 0 :=
  ⟨recenter_sum_eq_zero (groups i) 0 (by decide),
    recenter_sum_eq_zero (groups i) 1 (by decide)⟩

/-- C10: `circInit` only changes x and y entries; the radius entry
(index 2) of every circle is unchanged. -/
theorem circInit_preserves_radius (n : ℕ)
    (groups : Fin n → Fin 4 → Fin 3 → ℚ) (rnd : ℕ → ℕ) (i : Fin n)
    (j : Fin 4) : (circInit n groups rnd).1 i j 2 = groups i j 2 := by
  show recenter (groups i) j 2 = groups i j 2
  simp [recenter]

/-- The C assignment
`currAnimFrame = currAnimFrame / (double) oldAnimFrames * animFrames;`:
the quotient is taken in real (here exact rational) arithmetic and the
store into the `unsigned int` truncates. -/
def rescaleFrame (c old new : ℕ) : ℕ :=
  (⌊(c : ℚ) / (old : ℚ) * (new : ℚ)⌋).toNat

/-- The mutable globals touched by `animSpecialKeys`:
`animDuration`, `animFrames`, `currAnimFrame`, `nonLin`, `nonLinCtl`. -/
structure AnimState where
  animDuration : ℚ
  animFrames : ℕ
  currAnimFrame : ℕ
  nonLin : ℝ
  nonLinCtl : ℤ

/-- The four special keys handled by `animSpecialKeys`. -/
inductive SpecialKey
  | right
  | left
  | up
  | down

/-- C: `void animSpecialKeys(int key, int x, int y)`.
`DURATION_CTL_LO = 0.2`, `DURATION_CTL_DELTA = 0.05`, `FRAMERATE = 60`,
`NON_LIN_CTL_HI = 21`, `NON_LIN_CTL_LO = -1`;
`animFrames = animDuration * FRAMERATE` truncates to `unsigned int`. -/
noncomputable def animSpecialKeys (key : SpecialKey) (s : AnimState) :
    AnimState :=
  match key with
  | .right =>
    if s.animDuration > 1 / 5 then
      let d := s.animDuration - 1 / 20
      let fr := (⌊d * 60⌋).toNat
      { s with
        animDuration := d
        animFrames := fr
        currAnimFrame := rescaleFrame s.currAnimFrame s.animFrames fr }
    else s
  | .left =>
    let d := s.animDuration + 1 / 20
    let fr := (⌊d * 60⌋).toNat
    { s with
      animDuration := d
      animFrames := fr
      currAnimFrame := rescaleFrame s.currAnimFrame s.animFrames fr }
  | .up =>
    if s.nonLinCtl < 21 then
      { s with
        nonLinCtl := s.nonLinCtl + 1
        nonLin := nonLinCtlCurve (s.nonLinCtl + 1) }
    else s
  | .down =>
    if s.nonLinCtl > -1 then
      { s with
        nonLinCtl := s.nonLinCtl - 1
        nonLin := nonLinCtlCurve (s.nonLinCtl - 1) }
    else s

/-- The initial values established in `main`:
`animDuration = 2.7`, `nonLinCtl = 12`,
`animFrames = animDuration * FRAMERATE`, `nonLin = nonLinCtlCurve(nonLinCtl)`,
and the trackers start at 0. -/
noncomputable def animState0 : AnimState :=
  { animDuration := 27 / 10
    animFrames := (⌊(27 / 10 : ℚ) * 60⌋).toNat
    currAnimFrame := 0
    nonLin := nonLinCtlCurve 12
    nonLinCtl := 12 }

/-!
The duration arithmetic of `animSpecialKeys` runs in IEEE binary64 in the
program, and the constants 2.7, 0.05 and 0.2 are not representable, so the
exact-rational reading above over-idealizes the `> DURATION_CTL_LO` guard.
The model below is bit-exact for the right-key trajectory: every double
that occurs lies in `[2⁻⁵, 4)`, so it is an integer multiple of `2⁻⁵⁷`
and is represented by that integer numerator (its value times `2⁵⁷`).
-/

/-- Round `a / b` to the nearest integer, ties to even
(the IEEE round-to-nearest-even rule at integer granularity). -/
def rne (a b : ℕ) : ℕ :=
  let q := a / b
  let r := a % b
  if 2 * r < b then q
  else if b < 2 * r then q + 1
  else if q % 2 = 0 then q else q + 1

/-- Unit in the last place of a positive binary64 value given by its
numerator in units of `2⁻⁵⁷` (the significand has 53 bits, so the ulp is
1 unit below `2⁵³` units and doubles with each binade above).  Values at
or above `2⁶` (beyond any duration reachable by right presses) are capped
at the last branch. -/
def ulp57 (n : ℕ) : ℕ :=
  if n < 2 ^ 53 then 1
  else if n < 2 ^ 54 then 2
  else if n < 2 ^ 55 then 4
  else if n < 2 ^ 56 then 8
  else if n < 2 ^ 57 then 16
  else if n < 2 ^ 58 then 32
  else if n < 2 ^ 59 then 64
  else if n < 2 ^ 60 then 128
  else if n < 2 ^ 61 then 256
  else if n < 2 ^ 62 then 512
  else 1024

/-- Round an exact value (an integer count of `2⁻⁵⁷` units) to the nearest
binary64, ties to even. -/
def roundB64 (n : ℕ) : ℕ :=
  rne n (ulp57 n) * ulp57 n

/-- The binary64 nearest to the decimal literal `num / den`, in `2⁻⁵⁷`
units: the binade (hence the ulp) is read off the truncated scaled value,
then the exact scaled value is rounded to that ulp. -/
def flUnits (num den : ℕ) : ℕ :=
  let u := ulp57 (num * 2 ^ 57 / den)
  rne (num * 2 ^ 57) (den * u) * u

/-- IEEE binary64 subtraction for `a ≥ b ≥ 0`: the exact difference,
rounded to nearest-even. -/
def subB64 (a b : ℕ) : ℕ := roundB64 (a - b)

/-- The `GLUT_KEY_RIGHT` branch of `animSpecialKeys` on the binary64
duration: `if (animDuration > DURATION_CTL_LO) animDuration -=
DURATION_CTL_DELTA;` with the double constants `0.2` and `0.05`. -/
def rightPressB64 (d : ℕ) : ℕ :=
  if flUnits 2 10 < d then subB64 d (flUnits 5 100) else d

/-- The binary64 `animDuration` after `n` right-key presses from the
startup value `2.7`. -/
def durAfterB64 : ℕ → ℕ
  | 0 => flUnits 27 10
  | n + 1 => rightPressB64 (durAfterB64 n)

set_option maxRecDepth 100000 in
/-- C8 fails on the code: after 50 right presses the binary64
`animDuration` is `0.2000000000000014…`, still above the double `0.2`, so
the guard admits a 51st press, which leaves `0.1500000000000014… < 0.2`.
The conjuncts say: the duration after 50 presses exceeds the double `0.2`
(so press 51 decrements), it exceeds the exact `1/5`, and after 51
presses it is strictly below the exact `1/5` — the claimed floor is
broken. -/
theorem animDuration_floor_violated :
    flUnits 2 10 < durAfterB64 50 ∧
    2 ^ 57 < 5 * durAfterB64 50 ∧
    5 * durAfterB64 51 < 2 ^ 57 := by decide

/-- C9: the nonlinearity control stays in `[-1, 21]`: the up key at 21 and
the down key at -1 are no-ops (the whole state, so in particular the
cached `nonLin`, is unchanged); in-range presses move the control by
exactly ±1 and recompute `nonLin = nonLinCtlCurve nonLinCtl`; and every
key event preserves the bounds. -/
theorem nonLinCtl_bounds (s : AnimState) (hlo : -1 ≤ s.nonLinCtl)
    (hhi : s.nonLinCtl ≤ 21) :
    (s.nonLinCtl = 21 → animSpecialKeys SpecialKey.up s = s) ∧
    (s.nonLinCtl = -1 → animSpecialKeys SpecialKey.down s = s) ∧
    (s.nonLinCtl < 21 →
      (animSpecialKeys SpecialKey.up s).nonLinCtl = s.nonLinCtl + 1 ∧
      (animSpecialKeys SpecialKey.up s).nonLin =
        nonLinCtlCurve (s.nonLinCtl + 1)) ∧
    (-1 < s.nonLinCtl →
      (animSpecialKeys SpecialKey.down s).nonLinCtl = s.nonLinCtl - 1 ∧
      (animSpecialKeys SpecialKey.down s).nonLin =
        nonLinCtlCurve (s.nonLinCtl - 1)) ∧
    (∀ key, -1 ≤ (animSpecialKeys key s).nonLinCtl ∧
      (animSpecialKeys key s).nonLinCtl ≤ 21) := by
  refine ⟨?_, ?_, ?_, ?_, ?_⟩
  · intro h21
    have hc : ¬ s.nonLinCtl < 21 := by omega
    simp only [animSpecialKeys, if_neg hc]
  · intro hm1
    have hc : ¬ s.nonLinCtl > -1 := by omega
    simp only [animSpecialKeys, if_neg hc]
  · intro hc
    constructor <;> simp [animSpecialKeys, if_pos hc]
  · intro hc
    constructor <;> simp [animSpecialKeys, if_pos hc]
  · intro key
    cases key with
    | right =>
      by_cases hgt : s.animDuration > 1 / 5 <;>
        simp only [animSpecialKeys, if_pos, if_neg, hgt, if_true,
          if_false] <;> omega
    | left => simp only [animSpecialKeys]; omega
    | up =>
      by_cases hc : s.nonLinCtl < 21 <;>
        simp only [animSpecialKeys, if_pos, if_neg, hc, if_true,
          if_false] <;> omega
    | down =>
      by_cases hc : s.nonLinCtl > -1 <;>
        simp only [animSpecialKeys, if_pos, if_neg, hc, if_true,
          if_false] <;> omega

/-- Witness for C9 at the startup state (control 12). -/
theorem nonLinCtl_bounds_witness :
    (animState0.nonLinCtl = 21 →
      animSpecialKeys SpecialKey.up animState0 = animState0) ∧
    (animState0.nonLinCtl = -1 →
      animSpecialKeys SpecialKey.down animState0 = animState0) ∧
    (animState0.nonLinCtl < 21 →
      (animSpecialKeys SpecialKey.up animState0).nonLinCtl =
        animState0.nonLinCtl + 1 ∧
      (animSpecialKeys SpecialKey.up animState0).nonLin =
        nonLinCtlCurve (animState0.nonLinCtl + 1)) ∧
    (-1 < animState0.nonLinCtl →
      (animSpecialKeys SpecialKey.down animState0).nonLinCtl =
        animState0.nonLinCtl - 1 ∧
      (animSpecialKeys SpecialKey.down animState0).nonLin =
        nonLinCtlCurve (animState0.nonLinCtl - 1)) ∧
    (∀ key, -1 ≤ (animSpecialKeys key animState0).nonLinCtl ∧
      (animSpecialKeys key animState0).nonLinCtl ≤ 21) :=
  nonLinCtl_bounds animState0 (by norm_num [animState0])
    (by norm_num [animState0])

/-- C4: the duration-change rescale `currAnimFrame / oldAnimFrames *
newAnimFrames` preserves the relative position within the transition
exactly whenever the result is integral; in the spec's example
`rescaleFrame 27 54 60 = 30`; and the left-key handler stores exactly this
rescaled frame. -/
theorem rescale_preserves_position :
    (∀ c old new : ℕ, 1 ≤ old → 1 ≤ new → old ∣ c * new →
      (rescaleFrame c old new : ℚ) / (new : ℚ) = (c : ℚ) / (old : ℚ)) ∧
    rescaleFrame 27 54 60 = 30 ∧
    (∀ s : AnimState,
      (animSpecialKeys SpecialKey.left s).currAnimFrame =
        rescaleFrame s.currAnimFrame s.animFrames
          (animSpecialKeys SpecialKey.left s).animFrames) := by
  have hmain : ∀ c old new : ℕ, 1 ≤ old → 1 ≤ new → old ∣ c * new →
      (rescaleFrame c old new : ℚ) / (new : ℚ) = (c : ℚ) / (old : ℚ) := by
    intro c old new hold hnew hdvd
    obtain ⟨q, hq⟩ := hdvd
    have hold0 : (0 : ℚ) < (old : ℚ) := by exact_mod_cast hold
    have hnew0 : (0 : ℚ) < (new : ℚ) := by exact_mod_cast hnew
    have hqcast : (c : ℚ) * (new : ℚ) = (old : ℚ) * (q : ℚ) := by
      exact_mod_cast congrArg (Nat.cast : ℕ → ℚ) hq
    have hval : (c : ℚ) / (old : ℚ) * (new : ℚ) = (q : ℚ) := by
      field_simp
      linarith [hqcast]
    have hfloor : rescaleFrame c old new = q := by
      rw [rescaleFrame, hval, Int.floor_natCast, Int.toNat_natCast]
    rw [hfloor, div_eq_div_iff (ne_of_gt hnew0) (ne_of_gt hold0)]
    linarith [hqcast]
  refine ⟨hmain, ?_, fun s => rfl⟩
  have h1 := hmain 27 54 60 (by norm_num) (by norm_num) (by norm_num)
  have hr : (rescaleFrame 27 54 60 : ℚ) = 30 := by
    rw [div_eq_div_iff (by norm_num) (by norm_num)] at h1
    push_cast at h1 ⊢
    linarith
  exact_mod_cast hr

/-- Witness for C4: the exact-preservation clause at the spec's own
numbers 27 / 54 → 60. -/
theorem rescale_preserves_position_witness :
    (rescaleFrame 27 54 60 : ℚ) / (60 : ℚ) = (27 : ℚ) / (54 : ℚ) :=
  rescale_preserves_position.1 27 54 60 (by norm_num) (by norm_num)
    (by norm_num)

end Vennimate
